import Mathlib

/-!
Verification of the automerge-repo core against its natural-language
specification.  The TypeScript/JavaScript sources are shallowly embedded:
byte buffers become `List Nat` (each element < 256), JS strings become
`List Char`, JS objects with optional fields become structures with
`Option` fields, and functions that throw become `Option`-returning
functions.  Where the repository's own code is not available (the
`DocHandle` implementation is only present as a type declaration), the
corresponding operations are modelled from the specification and marked
as such in their doc comments.
-/

/-! ## SHA-256 (the `sha256x2` checksum used by bs58check)

`bs58check` appends the first four bytes of `sha256(sha256(payload))` to
the payload before base58 encoding.  We embed SHA-256 (FIPS 180-4) over
`List Nat` bytes.  32-bit machine words are `Nat` reduced mod 2^32. -/

/-- Truncate to a 32-bit word. -/
def w32 (x : Nat) : Nat := x % 4294967296

/-- Right rotation of a 32-bit word. -/
def rotr32 (n x : Nat) : Nat := w32 ((x >>> n) ||| (x <<< (32 - n)))

def bigSigma0 (x : Nat) : Nat := rotr32 2 x ^^^ rotr32 13 x ^^^ rotr32 22 x

def bigSigma1 (x : Nat) : Nat := rotr32 6 x ^^^ rotr32 11 x ^^^ rotr32 25 x

def smallSigma0 (x : Nat) : Nat := rotr32 7 x ^^^ rotr32 18 x ^^^ (x >>> 3)

def smallSigma1 (x : Nat) : Nat := rotr32 17 x ^^^ rotr32 19 x ^^^ (x >>> 10)

def chFn (x y z : Nat) : Nat := (x &&& y) ^^^ ((x ^^^ 4294967295) &&& z)

def majFn (x y z : Nat) : Nat := (x &&& y) ^^^ (x &&& z) ^^^ (y &&& z)

/-- The 64 SHA-256 round constants. -/
def sha256K : List Nat :=
  [1116352408, 1899447441, 3049323471, 3921009573, 961987163,
   1508970993, 2453635748, 2870763221, 3624381080, 310598401,
   607225278, 1426881987, 1925078388, 2162078206, 2614888103,
   3248222580, 3835390401, 4022224774, 264347078, 604807628,
   770255983, 1249150122, 1555081692, 1996064986, 2554220882,
   2821834349, 2952996808, 3210313671, 3336571891, 3584528711,
   113926993, 338241895, 666307205, 773529912, 1294757372,
   1396182291, 1695183700, 1986661051, 2177026350, 2456956037,
   2730485921, 2820302411, 3259730800, 3345764771, 3516065817,
   3600352804, 4094571909, 275423344, 430227734, 506948616,
   659060556, 883997877, 958139571, 1322822218, 1537002063,
   1747873779, 1955562222, 2024104815, 2227730452, 2361852424,
   2428436474, 2756734187, 3204031479, 3329325298]

/-- The running hash: eight 32-bit words. -/
structure Hash8 where
  a : Nat
  b : Nat
  c : Nat
  d : Nat
  e : Nat
  f : Nat
  g : Nat
  h : Nat

def sha256InitH : Hash8 :=
  ⟨1779033703, 3144134277, 1013904242, 2773480762,
   1359893119, 2600822924, 528734635, 1541459225⟩

/-- Extend the sixteen block words to the 64-entry message schedule. -/
def sha256Schedule (ws : List Nat) : List Nat :=
  (List.range 48).foldl
    (fun acc _ =>
      acc ++ [w32 (smallSigma1 (acc.getD (acc.length - 2) 0) +
                   acc.getD (acc.length - 7) 0 +
                   smallSigma0 (acc.getD (acc.length - 15) 0) +
                   acc.getD (acc.length - 16) 0)])
    ws

/-- One compression round. -/
def sha256Round (st : Hash8) (kw : Nat × Nat) : Hash8 :=
  let t1 := w32 (st.h + bigSigma1 st.e + chFn st.e st.f st.g + kw.1 + kw.2)
  let t2 := w32 (bigSigma0 st.a + majFn st.a st.b st.c)
  ⟨w32 (t1 + t2), st.a, st.b, st.c, w32 (st.d + t1), st.e, st.f, st.g⟩

/-- Compress one 16-word block into the running hash. -/
def sha256Compress (hv : Hash8) (ws : List Nat) : Hash8 :=
  let fin := (sha256K.zip (sha256Schedule ws)).foldl sha256Round hv
  ⟨w32 (hv.a + fin.a), w32 (hv.b + fin.b), w32 (hv.c + fin.c), w32 (hv.d + fin.d),
   w32 (hv.e + fin.e), w32 (hv.f + fin.f), w32 (hv.g + fin.g), w32 (hv.h + fin.h)⟩

/-- Big-endian 4-byte groups to 32-bit words. -/
def bytesToWords : List Nat → List Nat
  | a :: b :: c :: d :: rest => (a * 16777216 + b * 65536 + c * 256 + d) :: bytesToWords rest
  | _ => []

/-- Fold the compression function over the 16-word blocks. -/
def sha256Process (hv : Hash8) : List Nat → Hash8
  | w0 :: w1 :: w2 :: w3 :: w4 :: w5 :: w6 :: w7 ::
    w8 :: w9 :: w10 :: w11 :: w12 :: w13 :: w14 :: w15 :: rest =>
      sha256Process
        (sha256Compress hv [w0, w1, w2, w3, w4, w5, w6, w7,
                            w8, w9, w10, w11, w12, w13, w14, w15]) rest
  | _ => hv

/-- FIPS 180-4 padding: append 0x80, zeros to 56 mod 64, then the bit length
as a 64-bit big-endian integer. -/
def sha256Pad (msg : List Nat) : List Nat :=
  let l := msg.length
  let zeros := (119 - (l % 64)) % 64
  let bits := 8 * l
  msg ++ [128] ++ List.replicate zeros 0 ++
    [(bits >>> 56) % 256, (bits >>> 48) % 256, (bits >>> 40) % 256,
     (bits >>> 32) % 256, (bits >>> 24) % 256, (bits >>> 16) % 256,
     (bits >>> 8) % 256, bits % 256]

/-- A 32-bit word as four big-endian bytes. -/
def wordToBytes (w : Nat) : List Nat :=
  [(w >>> 24) % 256, (w >>> 16) % 256, (w >>> 8) % 256, w % 256]

/-- SHA-256 of a byte list, as a 32-byte list. -/
def sha256 (msg : List Nat) : List Nat :=
  let hv := sha256Process sha256InitH (bytesToWords (sha256Pad msg))
  wordToBytes hv.a ++ wordToBytes hv.b ++ wordToBytes hv.c ++ wordToBytes hv.d ++
  wordToBytes hv.e ++ wordToBytes hv.f ++ wordToBytes hv.g ++ wordToBytes hv.h

/-- `sha256x2` from bs58check: the double SHA-256. -/
def sha256x2 (msg : List Nat) : List Nat := sha256 (sha256 msg)

/-! ## Base58check (the bs58check dependency of AutomergeUrl)

`bs58check` is `base-x` with the Bitcoin alphabet plus a 4-byte
`sha256x2` checksum.  `base-x` interprets the buffer as a big-endian
integer, emits its base-58 digits, and prepends one `'1'` per leading
zero byte; decoding reverses this and fails on any character outside the
alphabet.  We realise the digit loops with an explicit fuel argument so
that every function is structurally recursive and kernel-evaluable. -/

/-- The Bitcoin base58 alphabet used by bs58check. -/
def b58Alphabet : List Char :=
  "123456789ABCDEFGHJKLMNPQRSTUVWXYZabcdefghijkmnopqrstuvwxyz".toList

/-- Little-endian base-`b` digits of `n`, with explicit fuel (the loops in
`base-x` repeatedly divide by the base until the number is exhausted). -/
def toDigitsLE (b : Nat) : Nat → Nat → List Nat
  | 0, _ => []
  | fuel + 1, n => if n = 0 then [] else n % b :: toDigitsLE b fuel (n / b)

/-- Big-endian digit list to a number (the multiply-and-add loops of
`base-x` encode/decode). -/
def ofDigitsBE (b : Nat) (l : List Nat) : Nat :=
  l.foldl (fun acc d => acc * b + d) 0

/-- `base-x` encode with the base58 alphabet: one `'1'` per leading zero
byte, then the base-58 digits of the big-endian value. -/
def encodeBase58 (bytes : List Nat) : List Char :=
  let zeros := (bytes.takeWhile (fun x => x == 0)).length
  let n := ofDigitsBE 256 bytes
  List.replicate zeros '1' ++ (toDigitsLE 58 n n).reverse.map (fun d => b58Alphabet.getD d '1')

/-- `base-x` decodeUnsafe with the base58 alphabet: `none` on any character
outside the alphabet, else leading `'1'`s become zero bytes and the rest is
read as a base-58 big-endian integer. -/
def decodeBase58 (s : List Char) : Option (List Nat) :=
  if s.all (fun c => decide (c ∈ b58Alphabet)) then
    let zeros := (s.takeWhile (fun c => c == '1')).length
    let rest := s.dropWhile (fun c => c == '1')
    let n := ofDigitsBE 58 (rest.map (fun c => b58Alphabet.indexOf c))
    some (List.replicate zeros 0 ++ (toDigitsLE 256 n n).reverse)
  else none

/-- `bs58check.encode`: append the first four bytes of `sha256x2` and
base58-encode. -/
def bs58checkEncode (payload : List Nat) : List Char :=
  encodeBase58 (payload ++ (sha256x2 payload).take 4)

/-- `bs58check.decodeUnsafe`: base58-decode, split off the trailing four
checksum bytes (`slice` clamps, and missing checksum bytes compare as 0 in
the xor test), recompute and compare; `none` on mismatch. -/
def bs58checkDecode (s : List Char) : Option (List Nat) :=
  match decodeBase58 s with
  | none => none
  | some buf =>
    let payload := buf.take (buf.length - 4)
    let checksum := buf.drop (buf.length - 4)
    let fresh := sha256x2 payload
    if (List.range 4).all (fun i => checksum.getD i 0 == fresh.getD i 0) then
      some payload
    else none

/-! ## AutomergeUrl (src/AutomergeUrl.js)

JS strings are `List Char`; functions that `throw` return `Option`. -/

/-- `urlPrefix` in the source: the literal string before the payload. -/
def urlHeader : List Char := "automerge:".toList

/-- JS `\w` character class: `[A-Za-z0-9_]`. -/
def isWordChar (c : Char) : Bool := c.isAlphanum || c == '_'

/-- The result object of `parseAutomergeUrl`. -/
structure UrlParseResult where
  binaryDocumentId : List Nat
  documentId : List Char
  deriving Repr, DecidableEq

/-- `documentIdToBinary`: `bs58check.decodeUnsafe`. -/
def documentIdToBinary (docId : List Char) : Option (List Nat) :=
  bs58checkDecode docId

/-- `binaryToDocumentId`: `bs58check.encode`. -/
def binaryToDocumentId (docId : List Nat) : List Char :=
  bs58checkEncode docId

/-- The match of `url` against the anchored regex
`^automerge:(\w+)$` — in JS (no `m` flag) `^`/`$` are the ends of the
whole string, so the url must be exactly the header followed by one or
more word characters. -/
def matchUrlRegex (url : List Char) : Option (List Char) :=
  let w := url.drop urlHeader.length
  if url.take urlHeader.length = urlHeader ∧ w ≠ [] ∧ w.all isWordChar then
    some w
  else none

/-- `parseAutomergeUrl`: match the regex (a failed match leaves
`documentId` undefined, so the subsequent decode throws) and decode the
captured group; `none` models every throwing path. -/
def parseAutomergeUrl (url : List Char) : Option UrlParseResult :=
  match matchUrlRegex url with
  | none => none
  | some docMatch =>
    match documentIdToBinary docMatch with
    | none => none
    | some bin => some ⟨bin, docMatch⟩

/-- The argument of `stringifyAutomergeUrl`: a binary or an encoded
documentId (the `{documentId}` object field is unwrapped the same way). -/
inductive UrlArg where
  | bin (b : List Nat)
  | str (s : List Char)

/-- `stringifyAutomergeUrl`: prepend the header to the (encoded) id. -/
def stringifyAutomergeUrl : UrlArg → List Char
  | .bin b => urlHeader ++ binaryToDocumentId b
  | .str s => urlHeader ++ s

/-- uuid v9 `validate` at byte level (the source stringifies the 16 bytes
and matches the UUID regex: version nibble 1-5 with variant nibble 8-b,
or the all-zero nil UUID).  `Uuid.stringify` throws when this fails, which
the caller of `isValidDocumentId` treats as `false`. -/
def uuidValidateBytes (b : List Nat) : Bool :=
  b.length == 16 &&
    ((1 ≤ b.getD 6 0 / 16 && b.getD 6 0 / 16 ≤ 5 &&
      (b.getD 8 0 / 16 == 8 || b.getD 8 0 / 16 == 9 ||
       b.getD 8 0 / 16 == 10 || b.getD 8 0 / 16 == 11)) ||
     b.all (fun x => x == 0))

/-- `isValidDocumentId`: decodes and checks that the bytes form a valid
UUID. -/
def isValidDocumentId (s : List Char) : Bool :=
  match documentIdToBinary s with
  | none => false
  | some bin => uuidValidateBytes bin

/-- `isValidAutomergeUrl`: requires the header, then parses inside a
`try` and validates the documentId; any throw yields `false`. -/
def isValidAutomergeUrl (s : List Char) : Bool :=
  if s.take urlHeader.length = urlHeader then
    match parseAutomergeUrl s with
    | none => false
    | some r => isValidDocumentId r.documentId
  else false

/-! ## NetworkSubsystem inbound filter (src/network/NetworkSubsystem.js)

The `"message"` handler in `addNetworkAdapter`: invalid messages are
ignored, ephemeral messages are deduplicated per source key
`senderId ++ ":" ++ sessionId` (delivered only when no count has been
seen for the key or the new count is strictly greater), all other repo
messages are delivered unconditionally. -/

/-- The fields of an ephemeral message that the filter inspects. -/
structure EphemeralFields where
  senderId : List Char
  sessionId : List Char
  count : Nat
  deriving Repr, DecidableEq

/-- An inbound adapter message: ephemeral, another repo message, or
something `isRepoMessage` rejects. -/
inductive InMsg where
  | ephemeral (e : EphemeralFields)
  | nonEphemeral (tag : Nat)
  | invalid (tag : Nat)
  deriving Repr, DecidableEq

/-- `getEphemeralMessageSource`: the template string
`senderId:sessionId`. -/
def ephemeralSource (e : EphemeralFields) : List Char :=
  e.senderId ++ ':' :: e.sessionId

/-- `#ephemeralSessionCounts`, keyed by the source string. -/
def EphemeralCounts : Type := List Char → Option Nat

/-- Record a new highest count for a source key. -/
def setCount (st : EphemeralCounts) (k : List Char) (c : Nat) : EphemeralCounts :=
  fun k2 => if k2 = k then some c else st k2

/-- One step of the `"message"` listener: returns the new count table and
the messages emitted (as `"message"` events) by this step. -/
def handleInbound (st : EphemeralCounts) (m : InMsg) : EphemeralCounts × List InMsg :=
  match m with
  | .invalid _ => (st, [])
  | .nonEphemeral _ => (st, [m])
  | .ephemeral e =>
    let src := ephemeralSource e
    match st src with
    | none => (setCount st src e.count, [m])
    | some c =>
      if e.count > c then (setCount st src e.count, [m]) else (st, [])

/-- Run the listener over a whole inbound trace, accumulating the
delivered messages. -/
def runInbound (msgs : List InMsg) : EphemeralCounts × List InMsg :=
  msgs.foldl (fun p m => ((handleInbound p.1 m).1, p.2 ++ (handleInbound p.1 m).2))
    (fun _ => none, [])

/-- The messages the subsystem emits for an inbound trace. -/
def deliveredMsgs (msgs : List InMsg) : List InMsg := (runInbound msgs).2

/-- The counts of delivered ephemerals belonging to one source key, in
delivery order. -/
def deliveredCountsForKey (k : List Char) (out : List InMsg) : List Nat :=
  out.filterMap (fun m =>
    match m with
    | .ephemeral e => if ephemeralSource e = k then some e.count else none
    | _ => none)

/-- The counts of delivered ephemerals of one `(senderId, sessionId)`
pair, in delivery order. -/
def deliveredCountsForPair (sender sess : List Char) (out : List InMsg) : List Nat :=
  out.filterMap (fun m =>
    match m with
    | .ephemeral e =>
      if e.senderId = sender ∧ e.sessionId = sess then some e.count else none
    | _ => none)

/-! ## NetworkSubsystem send (src/network/NetworkSubsystem.js)

`send` drops the message when the target peer has no adapter; otherwise
`prepareMessage` passes an ephemeral that already carries a `count`
through unchanged, stamps a new ephemeral with `++this.#count`, the
session id and our `senderId`, and stamps every other message with our
`senderId`. -/

/-- An outbound message as `send` sees it: the fields `prepareMessage`
touches are optional because messages from the synchronizer arrive
without them. -/
structure SendMsg where
  isEphemeralType : Bool
  targetId : List Char
  senderId : Option (List Char)
  count : Option Nat
  sessionId : Option (List Char)
  deriving Repr, DecidableEq

/-- The subsystem state `send` reads and writes: `#count`, `#sessionId`
and the keys of `#adaptersByPeer`. -/
structure SendState where
  count : Nat
  sessionId : List Char
  routedPeers : List (List Char)
  deriving Repr, DecidableEq

/-- One call to `send`: `none` output when the peer is unrouted (the
message is dropped with a log), otherwise the prepared message handed to
the adapter. -/
def sendStep (peerId : List Char) (st : SendState) (m : SendMsg) :
    SendState × Option SendMsg :=
  if m.targetId ∈ st.routedPeers then
    if m.isEphemeralType then
      match m.count with
      | some _ => (st, some m)
      | none =>
        let c := st.count + 1
        ({st with count := c},
         some {m with count := some c, sessionId := some st.sessionId,
                      senderId := some peerId})
    else (st, some {m with senderId := some peerId})
  else (st, none)

/-- A run of successive `send` calls, keeping the input/output pairs. -/
def runSends (peerId : List Char) (st : SendState) (msgs : List SendMsg) :
    SendState × List (SendMsg × Option SendMsg) :=
  msgs.foldl (fun p m => ((sendStep peerId p.1 m).1, p.2 ++ [(m, (sendStep peerId p.1 m).2)]))
    (st, [])

/-- The counts stamped onto newly originated ephemerals during a run, in
send order. -/
def stampedCounts (trace : List (SendMsg × Option SendMsg)) : List Nat :=
  trace.filterMap (fun p =>
    match p with
    | (mi, some mo) =>
      if mi.isEphemeralType && mi.count.isNone then mo.count else none
    | _ => none)

/-! ## Repo handle cache, create and delete (src/Repo.js)

DocumentIds are opaque to the Repo, so they are modelled as `Nat`; the
random 128-bit id minted by `generateAutomergeUrl` is modelled by the
`nextDocId` counter (freshness of a random UUID corresponds to the
invariant that every cached id is below the counter).  Handles carry a
construction tag `hid` so that object identity is expressible.  The
`DocHandle` implementation is not part of the sources (only its type
declaration is), so its operations are modelled from the spec. -/

/-- The CRDT document value a handle holds, as far as the Repo shapes it. -/
inductive AmDoc where
  /-- `Automerge.from(initialValue)` with the initial value abstracted to a `Nat`. -/
  | fromValue (v : Nat)
  /-- `Automerge.emptyChange(Automerge.init())`. -/
  | emptyChangeInit
  deriving Repr, DecidableEq

/-- The seven DocHandle states. -/
inductive HState where
  | idle
  | loading
  | requesting
  | ready
  | unloaded
  | deleted
  | unavailable
  deriving Repr, DecidableEq

/-- A DocHandle as the Repo observes it. -/
structure Handle where
  hid : Nat
  documentId : Nat
  hstate : HState
  hdoc : Option AmDoc
  deriving Repr, DecidableEq

/-- Modelled from the spec: `DocHandle.update` is called with the new
document state and "does not cause state changes" (the DocHandle
implementation is absent from the sources). -/
def Handle.update (h : Handle) (cb : Option AmDoc → AmDoc) : Handle :=
  {h with hdoc := some (cb h.hdoc)}

/-- Modelled from the spec: `doneLoading` is called by the repo once it
has all the changes it is going to get during setup and moves the handle
to READY (spec state machine, `create()`/`found` transitions). -/
def Handle.doneLoading (h : Handle) : Handle :=
  {h with hstate := .ready}

/-- Modelled from the spec: `delete()` moves the handle from any state to
the terminal DELETED state. -/
def Handle.deleteHandle (h : Handle) : Handle :=
  {h with hstate := .deleted}

/-- `isReady()`. -/
def Handle.isReady (h : Handle) : Bool := h.hstate == .ready

/-- `isDeleted()`. -/
def Handle.isDeleted (h : Handle) : Bool := h.hstate == .deleted

/-- `isUnavailable()`. -/
def Handle.isUnavailable (h : Handle) : Bool := h.hstate == .unavailable

/-- The Repo state the cache claims touch: `#handleCache` (a JS object,
keyed by documentId), the id/handle freshness counters and whether a
storage subsystem was configured. -/
structure RepoState where
  cache : List (Nat × Handle)
  nextDocId : Nat
  nextHid : Nat
  hasStorage : Bool
  deriving Repr, DecidableEq

/-- Cache lookup, `this.#handleCache[documentId]`. -/
def cacheLookup (cache : List (Nat × Handle)) (id : Nat) : Option Handle :=
  (cache.find? (fun p => p.1 == id)).map (fun p => p.2)

/-- Replace the cached handle object for an id (JS mutates the handle in
place; here the cache entry is rewritten). -/
def cacheUpdate (cache : List (Nat × Handle)) (id : Nat) (h : Handle) :
    List (Nat × Handle) :=
  cache.map (fun p => if p.1 == id then (id, h) else p)

/-- Events the modelled Repo operations emit. -/
inductive RepoEvent where
  /-- the `delete-document` event -/
  | deleteDocument (id : Nat)
  /-- `storageSubsystem.removeDoc` requested by the `delete-document` listener -/
  | removeDocRequested (id : Nat)
  /-- the `document` event from `#registerHandleWithSubsystems` -/
  | documentEvent (id : Nat)
  /-- re-emission of `unavailable` for a cached UNAVAILABLE handle -/
  | unavailableEmitted (id : Nat)
  deriving Repr, DecidableEq

/-- `#getHandle`: return the cached handle if present, else construct a
fresh DocHandle, cache it and return it. -/
def getHandle (st : RepoState) (id : Nat) : Handle × RepoState :=
  match cacheLookup st.cache id with
  | some h => (h, st)
  | none =>
    let h : Handle := ⟨st.nextHid, id, .idle, none⟩
    (h, {st with cache := (id, h) :: st.cache, nextHid := st.nextHid + 1})

/-- `Repo.create`: mint a fresh documentId, obtain a handle through
`#getHandle`, register it (`document` event; synchronizer registration is
outside this model), seed it with `Automerge.from(initialValue)` or
`Automerge.emptyChange(Automerge.init())`, and `doneLoading()` it. -/
def repoCreate (st : RepoState) (initialValue : Option Nat) :
    Handle × RepoState × List RepoEvent :=
  let id := st.nextDocId
  let st1 := {st with nextDocId := st.nextDocId + 1}
  let (h, st2) := getHandle st1 id
  let h1 := h.update (fun _ =>
    match initialValue with
    | some v => AmDoc.fromValue v
    | none => AmDoc.emptyChangeInit)
  let h2 := h1.doneLoading
  (h2, {st2 with cache := cacheUpdate st2.cache id h2}, [.documentEvent id])

/-- `Repo.find` on an already interpreted documentId.  The cached branch
returns the cached handle object unchanged (scheduling a later
`unavailable` re-emission when it is UNAVAILABLE); the uncached branch
creates the handle through `#getHandle` and returns it immediately (the
asynchronous storage-load/request continuation is outside this model). -/
def repoFind (st : RepoState) (id : Nat) : Handle × RepoState × List RepoEvent :=
  match cacheLookup st.cache id with
  | some h =>
    (h, st, if h.isUnavailable then [.unavailableEmitted id] else [])
  | none =>
    let (h, st1) := getHandle st id
    (h, st1, [.documentEvent id])

/-- `Repo.delete` on an already interpreted documentId: `#getHandle`
(creating a fresh handle when the id is unknown), `handle.delete()`,
remove the cache entry, emit `delete-document`; the constructor's
listener for that event requests `storageSubsystem.removeDoc` when a
storage subsystem is configured. -/
def repoDelete (st : RepoState) (id : Nat) : Handle × RepoState × List RepoEvent :=
  let (h, st1) := getHandle st id
  let h1 := h.deleteHandle
  let st2 := {st1 with cache := st1.cache.filter (fun p => !(p.1 == id))}
  (h1, st2,
   .deleteDocument id :: (if st.hasStorage then [.removeDocRequested id] else []))

/-! ## Repo sync-state persistence (src/Repo.js `#saveSyncState`)

`#saveSyncState` returns early when there is no storage subsystem or
when the peer's metadata yields no (truthy) `storageId` or marks the
peer ephemeral; only then does it reach the per-storageId throttled
handler that calls `storageSubsystem.saveSyncState`.  The throttle delays
and coalesces writes but never creates one, so the model returns the save
request that the handler would receive, or `none` when nothing is ever
persisted for the event. -/

/-- `PeerMetadata`. -/
structure PeerMd where
  storageId : Option (List Char)
  isEphemeral : Bool
  deriving Repr, DecidableEq

/-- The payload of a `sync-state` event (the sync state itself is opaque
here). -/
structure SyncStatePayload where
  documentId : Nat
  peerId : List Char
  syncStateRepr : Nat
  deriving Repr, DecidableEq

/-- The Repo fields `#saveSyncState` reads. -/
structure SyncSaveEnv where
  hasStorageSubsystem : Bool
  peerMetadataByPeerId : List (List Char × PeerMd)
  deriving Repr, DecidableEq

/-- JS truthiness test of the optional `storageId` string
(`!storageId`): missing or empty strings are falsy. -/
def strFalsy : Option (List Char) → Bool
  | none => true
  | some s => s.isEmpty

/-- A `storageSubsystem.saveSyncState(documentId, storageId, syncState)`
request. -/
structure SaveSyncRequest where
  documentId : Nat
  storageId : List Char
  syncStateRepr : Nat
  deriving Repr, DecidableEq

/-- `#saveSyncState`, as the save request it forwards (through the
per-storageId throttle) or `none` when the event is never persisted. -/
def saveSyncState (env : SyncSaveEnv) (p : SyncStatePayload) :
    Option SaveSyncRequest :=
  if env.hasStorageSubsystem then
    let md := (env.peerMetadataByPeerId.find? (fun q => q.1 == p.peerId)).map
      (fun q => q.2)
    let sid := match md with
      | some m => m.storageId
      | none => none
    let eph := match md with
      | some m => m.isEphemeral
      | none => false
    if strFalsy sid || eph then none
    else some ⟨p.documentId, sid.getD [], p.syncStateRepr⟩
  else none

/-! ## CollectionSynchronizer (src/synchronizer/CollectionSynchronizer.js)

The claims concern the `#docSetUp` dedupe flag, which in the source is
set only by `receiveMessage` — `addDocument` checks it but never sets
it.  DocSynchronizers carry a construction tag `syncId` (identity) and
the set of peers they know; `beginSync` is modelled from the spec
("initializes state for any not-yet-known peer and starts sync") since
the DocSynchronizer implementation is absent from the sources.  The
share policy is a parameter (the Repo default shares with everyone). -/

/-- A DocSynchronizer as the collection observes it. -/
structure DocSyncState where
  syncId : Nat
  knownPeers : List (List Char)
  deriving Repr, DecidableEq

/-- The CollectionSynchronizer state: `#peers`, `docSynchronizers`,
`#docSetUp` (represented by the list of ids mapped to true) and the
identity counter for created synchronizers. -/
structure CollSyncState where
  peers : List (List Char)
  docSynchronizers : List (Nat × DocSyncState)
  docSetUp : List Nat
  nextSyncId : Nat
  deriving Repr, DecidableEq

/-- The observable side effects of the collection operations. -/
inductive CollEffect where
  /-- a new DocSynchronizer was constructed (via `#fetchDocSynchronizer`,
  which also triggers `repo.find`) -/
  | createdSynchronizer (documentId : Nat) (syncId : Nat)
  /-- `docSynchronizer.beginSync(peers)` was invoked with this peer list -/
  | beganSync (documentId : Nat) (peers : List (List Char))
  /-- `docSynchronizer.receiveMessage(message)` was invoked -/
  | fedMessage (documentId : Nat)
  deriving Repr, DecidableEq

/-- `#fetchDocSynchronizer`: return the mapped synchronizer, creating
it on first reference. -/
def fetchDocSynchronizer (st : CollSyncState) (id : Nat) :
    DocSyncState × CollSyncState × List CollEffect :=
  match st.docSynchronizers.find? (fun p => p.1 == id) with
  | some p => (p.2, st, [])
  | none =>
    let ds : DocSyncState := ⟨st.nextSyncId, []⟩
    (ds,
     {st with docSynchronizers := (id, ds) :: st.docSynchronizers,
              nextSyncId := st.nextSyncId + 1},
     [.createdSynchronizer id st.nextSyncId])

/-- `#documentGenerousPeers`: the connected peers the share policy
admits for this document. -/
def documentGenerousPeers (policy : List Char → Nat → Bool)
    (st : CollSyncState) (id : Nat) : List (List Char) :=
  st.peers.filter (fun p => policy p id)

/-- Modelled from the spec: `DocSynchronizer.beginSync(peers)`
"initializes state for any not-yet-known peer and starts sync" (the
DocSynchronizer implementation is absent from the sources); the model
adds the peers to the synchronizer's known set. -/
def beginSyncModel (ds : DocSyncState) (newPeers : List (List Char)) : DocSyncState :=
  {ds with knownPeers :=
    ds.knownPeers ++ newPeers.filter (fun p => !(ds.knownPeers.contains p))}

/-- Write back a synchronizer into the map. -/
def putSynchronizer (st : CollSyncState) (id : Nat) (ds : DocSyncState) :
    CollSyncState :=
  {st with docSynchronizers :=
    st.docSynchronizers.map (fun p => if p.1 == id then (id, ds) else p)}

/-- `CollectionSynchronizer.addDocument`: early return when `#docSetUp`
has the id; otherwise fetch (possibly creating) the synchronizer and
invoke `beginSync` with all generous peers.  Note the source never sets
`#docSetUp` here. -/
def addDocument (policy : List Char → Nat → Bool) (st : CollSyncState)
    (id : Nat) : CollSyncState × List CollEffect :=
  if st.docSetUp.contains id then (st, [])
  else
    let r := fetchDocSynchronizer st id
    let genPeers := documentGenerousPeers policy r.2.1 id
    let ds1 := beginSyncModel r.1 genPeers
    (putSynchronizer r.2.1 id ds1, r.2.2 ++ [.beganSync id genPeers])

/-- `CollectionSynchronizer.receiveMessage` (documentId view): sets
`#docSetUp[documentId] = true`, fetches the synchronizer, feeds it the
message and begins sync with the generous peers it does not know yet. -/
def collReceiveMessage (policy : List Char → Nat → Bool) (st : CollSyncState)
    (id : Nat) : CollSyncState × List CollEffect :=
  let st0 := {st with docSetUp :=
    if st.docSetUp.contains id then st.docSetUp else id :: st.docSetUp}
  let r := fetchDocSynchronizer st0 id
  let newPeers := (documentGenerousPeers policy r.2.1 id).filter
    (fun p => !(r.1.knownPeers.contains p))
  let ds1 := beginSyncModel r.1 newPeers
  (putSynchronizer r.2.1 id ds1, r.2.2 ++ [.fedMessage id, .beganSync id newPeers])

/-! # Theorems

## Digit-conversion lemmas for base58 -/

theorem toDigitsLE_eq_digits (b : Nat) (hb : 2 ≤ b) :
    ∀ fuel n, n ≤ fuel → toDigitsLE b fuel n = Nat.digits b n := by
  intro fuel
  induction fuel with
  | zero =>
    intro n hn
    interval_cases n
    simp [toDigitsLE]
  | succ fuel ih =>
    intro n hn
    by_cases h0 : n = 0
    · simp [toDigitsLE, h0]
    · have hlt : n / b < n := Nat.div_lt_self (Nat.pos_of_ne_zero h0) hb
      have hrec : n / b ≤ fuel := by omega
      rw [toDigitsLE, if_neg h0, ih _ hrec,
        Nat.digits_def' (by omega : 1 < b) (Nat.pos_of_ne_zero h0)]

theorem foldl_mulAdd_eq (b : Nat) :
    ∀ (l : List Nat) (a : Nat),
      l.foldl (fun acc d => acc * b + d) a = a * b ^ l.length + Nat.ofDigits b l.reverse := by
  intro l
  induction l with
  | nil => intro a; simp [Nat.ofDigits]
  | cons x xs ih =>
    intro a
    rw [List.foldl_cons, ih (a * b + x)]
    rw [List.reverse_cons, Nat.ofDigits_append]
    simp [Nat.ofDigits_singleton, List.length_reverse, pow_succ]
    ring

theorem ofDigitsBE_eq (b : Nat) (l : List Nat) :
    ofDigitsBE b l = Nat.ofDigits b l.reverse := by
  rw [ofDigitsBE, foldl_mulAdd_eq]
  simp

theorem ofDigits_eq_zero_forall (b : Nat) (hb : 0 < b) :
    ∀ l : List Nat, Nat.ofDigits b l = 0 → ∀ x ∈ l, x = 0 := by
  intro l
  induction l with
  | nil => simp
  | cons d ds ih =>
    intro h x hx
    rw [Nat.ofDigits_cons] at h
    have hd : d = 0 := by omega
    have hmul : b * Nat.ofDigits b ds = 0 := by omega
    have hds : Nat.ofDigits b ds = 0 := by
      rcases Nat.mul_eq_zero.mp hmul with h2 | h2
      · omega
      · exact h2
    rcases List.mem_cons.mp hx with hx2 | hx2
    · omega
    · exact ih hds x hx2

theorem ofDigitsBE_zero_all_zero (l : List Nat) (h : ofDigitsBE 256 l = 0) :
    ∀ x ∈ l, x = 0 := by
  rw [ofDigitsBE_eq] at h
  intro x hx
  exact ofDigits_eq_zero_forall 256 (by norm_num) l.reverse h x (by simpa using hx)

theorem takeWhile_replicate_append {α : Type} (p : α → Bool) (c : α)
    (hc : p c = true) :
    ∀ (z : Nat) (l : List α),
      (List.replicate z c ++ l).takeWhile p = List.replicate z c ++ l.takeWhile p ∧
      (List.replicate z c ++ l).dropWhile p = l.dropWhile p := by
  intro z
  induction z with
  | zero => intro l; simp
  | succ z ih =>
    intro l
    have h := ih l
    simp [List.replicate_succ, List.takeWhile_cons, List.dropWhile_cons, hc,
      h.1, h.2]

theorem takeWhile_nil_of_head {α : Type} (p : α → Bool) :
    ∀ (l : List α), (∀ x xs, l = x :: xs → p x = false) →
      l.takeWhile p = [] ∧ l.dropWhile p = l := by
  intro l hl
  cases l with
  | nil => simp
  | cons x xs =>
    have := hl x xs rfl
    simp [List.takeWhile_cons, List.dropWhile_cons, this]

/-- Facts about the base58 alphabet, settled by evaluation: indexing is
inverse to lookup, every alphabet character is a word character, and the
only character with digit value 0 is `'1'`. -/
theorem b58Alphabet_facts :
    ∀ d, d < 58 →
      b58Alphabet.indexOf (b58Alphabet.getD d '1') = d ∧
      b58Alphabet.getD d '1' ∈ b58Alphabet ∧
      isWordChar (b58Alphabet.getD d '1') = true ∧
      (d ≠ 0 → b58Alphabet.getD d '1' ≠ '1') := by decide

theorem one_mem_b58Alphabet : '1' ∈ b58Alphabet := by decide

/-- `dropWhile` leaves a list that is empty or starts with a failing
element. -/
theorem dropWhile_head_false {α : Type} (p : α → Bool) (l : List α) :
    ∀ x xs, l.dropWhile p = x :: xs → p x = false := by
  induction l with
  | nil => intro x xs h; simp at h
  | cons y ys ih =>
    intro x xs h
    rw [List.dropWhile_cons] at h
    by_cases hy : p y = true
    · rw [if_pos hy] at h; exact ih x xs h
    · rw [if_neg hy] at h
      cases h
      simpa using hy

/-- The zero-free tail produced by `dropWhile (· == 0)` reconstructs from
its big-endian value. -/
theorem digits_reconstruct_tail (rest : List Nat)
    (hb : ∀ x ∈ rest, x < 256)
    (hhead : ∀ x xs, rest = x :: xs → x ≠ 0) :
    (toDigitsLE 256 (ofDigitsBE 256 rest) (ofDigitsBE 256 rest)).reverse = rest := by
  rcases hr : rest with _ | ⟨x, xs⟩
  · simp [ofDigitsBE, toDigitsLE]
  · rw [← hr]
    have hx : x ≠ 0 := hhead x xs hr
    have hne : rest.reverse ≠ [] := by simp [hr]
    rw [toDigitsLE_eq_digits 256 (by norm_num) _ _ (le_refl _), ofDigitsBE_eq]
    rw [Nat.digits_ofDigits 256 (by norm_num) rest.reverse
      (by intro l hl; exact hb l (by simpa using hl))
      (by
        intro h
        rw [List.getLast_reverse]
        simpa [hr] using hx)]
    simp

theorem foldl_mulAdd_replicate_zero (b : Nat) :
    ∀ z : Nat, (List.replicate z 0).foldl (fun acc d => acc * b + d) 0 = 0 := by
  intro z
  induction z with
  | zero => simp
  | succ z ih => simpa [List.replicate_succ] using ih


theorem decodeBase58_encodeBase58 (buf : List Nat) (hb : ∀ x ∈ buf, x < 256) :
    decodeBase58 (encodeBase58 buf) = some buf := by
  have hzeros : buf.takeWhile (fun x => x == 0) =
      List.replicate ((buf.takeWhile (fun x => x == 0)).length) 0 := by
    apply List.eq_replicate_of_mem
    intro x hx
    simpa using List.mem_takeWhile_imp hx
  have hsplit : buf = List.replicate ((buf.takeWhile (fun x => x == 0)).length) 0 ++
      buf.dropWhile (fun x => x == 0) := by
    conv_lhs => rw [← List.takeWhile_append_dropWhile (fun x => x == 0) buf]
    rw [← hzeros]
  have hrestmem : ∀ x ∈ buf.dropWhile (fun x => x == 0), x < 256 := by
    intro x hx
    exact hb x ((List.dropWhile_sublist _).subset hx)
  have hn : ofDigitsBE 256 buf = ofDigitsBE 256 (buf.dropWhile (fun x => x == 0)) := by
    conv_lhs => rw [hsplit]
    rw [ofDigitsBE, List.foldl_append, foldl_mulAdd_replicate_zero]
    rfl
  set z := (buf.takeWhile (fun x => x == 0)).length with hz
  set rest := buf.dropWhile (fun x => x == 0) with hrest
  set n := ofDigitsBE 256 rest with hnd
  have hdig : toDigitsLE 58 n n = Nat.digits 58 n :=
    toDigitsLE_eq_digits 58 (by norm_num) n n le_rfl
  have hdlt : ∀ d ∈ Nat.digits 58 n, d < 58 := fun d hd =>
    Nat.digits_lt_base (by norm_num) hd
  have henc : encodeBase58 buf =
      List.replicate z '1' ++
        (Nat.digits 58 n).reverse.map (fun d => b58Alphabet.getD d '1') := by
    simp only [encodeBase58]
    rw [hn, hdig, ← hz]
  have hdchead : ∀ x xs,
      (Nat.digits 58 n).reverse.map (fun d => b58Alphabet.getD d '1') = x :: xs →
        (x == '1') = false := by
    intro x xs hx
    rcases hrevc : (Nat.digits 58 n).reverse with _ | ⟨d, ds⟩
    · rw [hrevc] at hx; simp at hx
    · rw [hrevc, List.map_cons] at hx
      injection hx with h1 h2
      have hn0 : n ≠ 0 := by
        intro h0
        rw [h0] at hrevc
        simp at hrevc
      have h5 : Nat.digits 58 n = ds.reverse ++ [d] := by
        have := congrArg List.reverse hrevc
        simpa using this
      have h6 : (Nat.digits 58 n).getLast (by simp [h5]) = d :=
        (List.getLast_congr _ (by simp) h5).trans (List.getLast_concat _)
      have hd0 : d ≠ 0 := fun hcon =>
        Nat.getLast_digit_ne_zero 58 hn0 (h6.trans hcon)
      have hdm : d ∈ Nat.digits 58 n := by
        rw [h5]; simp
      have hne1 : b58Alphabet.getD d '1' ≠ '1' :=
        (b58Alphabet_facts d (hdlt d hdm)).2.2.2 hd0
      rw [← h1]
      simpa using hne1
  have hall : (encodeBase58 buf).all (fun c => decide (c ∈ b58Alphabet)) = true := by
    rw [henc, List.all_append, Bool.and_eq_true]
    constructor
    · rw [List.all_eq_true]
      intro x hx
      rw [List.mem_replicate] at hx
      rw [hx.2]
      exact decide_eq_true one_mem_b58Alphabet
    · rw [List.all_eq_true]
      intro x hx
      rw [List.mem_map] at hx
      obtain ⟨d, hd, hdx⟩ := hx
      have hdm : d ∈ Nat.digits 58 n := by simpa using hd
      rw [← hdx]
      exact decide_eq_true (b58Alphabet_facts d (hdlt d hdm)).2.1
  have htw := takeWhile_replicate_append (fun c => c == '1') '1' (by decide) z
    ((Nat.digits 58 n).reverse.map (fun d => b58Alphabet.getD d '1'))
  have htw2 := takeWhile_nil_of_head (fun c => c == '1')
    ((Nat.digits 58 n).reverse.map (fun d => b58Alphabet.getD d '1'))
    (fun x xs h => hdchead x xs h)
  have hmap : ((Nat.digits 58 n).reverse.map (fun d => b58Alphabet.getD d '1')).map
      (fun c => b58Alphabet.indexOf c) = (Nat.digits 58 n).reverse := by
    rw [List.map_map]
    have hcg : ∀ d ∈ (Nat.digits 58 n).reverse,
        ((fun c => b58Alphabet.indexOf c) ∘ fun d => b58Alphabet.getD d '1') d = id d := by
      intro d hd
      have hdm : d ∈ Nat.digits 58 n := by simpa using hd
      simpa using (b58Alphabet_facts d (hdlt d hdm)).1
    rw [List.map_congr_left hcg, List.map_id]
  have hn2 : ofDigitsBE 58 (Nat.digits 58 n).reverse = n := by
    rw [ofDigitsBE_eq, List.reverse_reverse, Nat.ofDigits_digits]
  have hrecon : (toDigitsLE 256 n n).reverse = rest := by
    apply digits_reconstruct_tail rest hrestmem
    intro x xs hx
    have := dropWhile_head_false (fun x => x == 0) buf x xs (by rw [← hrest, hx])
    simpa using this
  rw [decodeBase58, if_pos hall, henc]
  simp only [htw.1, htw.2, htw2.1, htw2.2, List.append_nil, List.length_replicate,
    hmap, hn2, hrecon]
  rw [← hsplit]

theorem wordToBytes_mem_lt (w : Nat) : ∀ x ∈ wordToBytes w, x < 256 := by
  intro x hx
  simp [wordToBytes] at hx
  rcases hx with h | h | h | h <;> omega

theorem sha256_length (m : List Nat) : (sha256 m).length = 32 := by
  simp [sha256, wordToBytes]

theorem sha256_mem_lt (m : List Nat) : ∀ x ∈ sha256 m, x < 256 := by
  intro x hx
  rw [sha256] at hx
  simp only [List.mem_append] at hx
  rcases hx with ((((((h | h) | h) | h) | h) | h) | h) | h <;>
    exact wordToBytes_mem_lt _ x h

theorem bs58checkDecode_encode (p : List Nat) (hp : ∀ x ∈ p, x < 256) :
    bs58checkDecode (bs58checkEncode p) = some p := by
  have hbuf : ∀ x ∈ p ++ (sha256x2 p).take 4, x < 256 := by
    intro x hx
    rcases List.mem_append.mp hx with h | h
    · exact hp x h
    · exact sha256_mem_lt _ x ((List.take_sublist _ _).subset h)
  have hdec := decodeBase58_encodeBase58 (p ++ (sha256x2 p).take 4) hbuf
  rw [bs58checkEncode, bs58checkDecode, hdec]
  have hlen4 : ((sha256x2 p).take 4).length = 4 := by
    rw [List.length_take]
    have := sha256_length (sha256 p)
    rw [sha256x2]
    omega
  have hget : ∀ i, i < 4 → ((sha256x2 p).take 4).getD i 0 = (sha256x2 p).getD i 0 := by
    intro i hi
    simp [List.getD_eq_getElem?_getD, List.getElem?_take, hi]
  have hcond : (List.range 4).all
      (fun i => ((p ++ (sha256x2 p).take 4).drop ((p ++ (sha256x2 p).take 4).length - 4)).getD i 0 ==
        (sha256x2 ((p ++ (sha256x2 p).take 4).take ((p ++ (sha256x2 p).take 4).length - 4))).getD i 0) = true := by
    rw [List.all_eq_true]
    intro i hi
    have hi4 : i < 4 := List.mem_range.mp hi
    have hidx : (p ++ (sha256x2 p).take 4).length - 4 = p.length := by
      rw [List.length_append, hlen4]
      omega
    rw [hidx, List.take_left, List.drop_left, hget i hi4]
    exact beq_self_eq_true _
  simp only [hcond, if_true]
  have hidx : (p ++ (sha256x2 p).take 4).length - 4 = p.length := by
    rw [List.length_append, hlen4]
    omega
  rw [hidx, List.take_left]

theorem encodeBase58_chars (buf : List Nat) :
    (encodeBase58 buf).all isWordChar = true ∧ (buf ≠ [] → encodeBase58 buf ≠ []) := by
  have hdig : toDigitsLE 58 (ofDigitsBE 256 buf) (ofDigitsBE 256 buf) =
      Nat.digits 58 (ofDigitsBE 256 buf) :=
    toDigitsLE_eq_digits 58 (by norm_num) _ _ le_rfl
  have henc : encodeBase58 buf =
      List.replicate ((buf.takeWhile (fun x => x == 0)).length) '1' ++
        (Nat.digits 58 (ofDigitsBE 256 buf)).reverse.map (fun d => b58Alphabet.getD d '1') := by
    simp only [encodeBase58]
    rw [hdig]
  constructor
  · rw [henc, List.all_append, Bool.and_eq_true]
    constructor
    · rw [List.all_eq_true]
      intro x hx
      rw [List.mem_replicate] at hx
      rw [hx.2]
      decide
    · rw [List.all_eq_true]
      intro x hx
      rw [List.mem_map] at hx
      obtain ⟨d, hd, hdx⟩ := hx
      have hdm : d ∈ Nat.digits 58 (ofDigitsBE 256 buf) := by simpa using hd
      rw [← hdx]
      exact (b58Alphabet_facts d (Nat.digits_lt_base (by norm_num) hdm)).2.2.1
  · intro hne hcontra
    rw [henc] at hcontra
    have h0 := List.append_eq_nil.mp hcontra
    have hzlen : (buf.takeWhile (fun x => x == 0)).length = 0 := by
      have := congrArg List.length h0.1
      simpa using this
    have hdigs : Nat.digits 58 (ofDigitsBE 256 buf) = [] := by
      have hrev : (Nat.digits 58 (ofDigitsBE 256 buf)).reverse = [] :=
        List.map_eq_nil.mp h0.2
      simpa using congrArg List.reverse hrev
    have hn0 : ofDigitsBE 256 buf = 0 := by
      have := Nat.digits_ne_nil_iff_ne_zero (b := 58) (n := ofDigitsBE 256 buf)
      by_cases h : ofDigitsBE 256 buf = 0
      · exact h
      · exact absurd hdigs (this.mpr h)
    have hall0 := ofDigitsBE_zero_all_zero buf hn0
    rcases hbuf : buf with _ | ⟨x, xs⟩
    · exact hne hbuf
    · have hx0 : x = 0 := hall0 x (by rw [hbuf]; simp)
      rw [hbuf, List.takeWhile_cons] at hzlen
      simp [hx0] at hzlen

/-- Claim C1: stringifying a 16-byte binary DocumentId to an automerge URL
and parsing it back returns the same 16 bytes — the encoding round-trips
losslessly. -/
theorem parseAutomergeUrl_stringify_roundtrip (b : List Nat)
    (hlen : b.length = 16) (hb : ∀ x ∈ b, x < 256) :
    (parseAutomergeUrl (stringifyAutomergeUrl (.bin b))).map
      (fun r => r.binaryDocumentId) = some b := by
  have hbuf : ∀ x ∈ b ++ (sha256x2 b).take 4, x < 256 := by
    intro x hx
    rcases List.mem_append.mp hx with h | h
    · exact hb x h
    · exact sha256_mem_lt _ x ((List.take_sublist _ _).subset h)
  have hchars := encodeBase58_chars (b ++ (sha256x2 b).take 4)
  have hbne : b ++ (sha256x2 b).take 4 ≠ [] := by
    intro h
    have := congrArg List.length h
    simp [hlen] at this
  have hne : bs58checkEncode b ≠ [] := hchars.2 hbne
  have hmatch : matchUrlRegex (urlHeader ++ bs58checkEncode b) =
      some (bs58checkEncode b) := by
    rw [matchUrlRegex]
    rw [List.take_left, List.drop_left]
    rw [if_pos ⟨rfl, hne, hchars.1⟩]
  have hstr : stringifyAutomergeUrl (.bin b) = urlHeader ++ bs58checkEncode b := rfl
  rw [hstr, parseAutomergeUrl, hmatch]
  have hdec : documentIdToBinary (bs58checkEncode b) = some b :=
    bs58checkDecode_encode b hb
  simp [hdec]

/-- Concrete instance of the C1 round trip at the all-zero 16-byte id. -/
theorem parseAutomergeUrl_stringify_roundtrip_witness :
    (parseAutomergeUrl (stringifyAutomergeUrl (.bin (List.replicate 16 0)))).map
      (fun r => r.binaryDocumentId) = some (List.replicate 16 0) :=
  parseAutomergeUrl_stringify_roundtrip (List.replicate 16 0) (by decide) (by decide)

theorem matchUrlRegex_eq_some (s w : List Char) :
    matchUrlRegex s = some w ↔
      (s = urlHeader ++ w ∧ w ≠ [] ∧ w.all isWordChar = true) := by
  constructor
  · intro h
    rw [matchUrlRegex] at h
    split at h
    next hc =>
      obtain rfl := Option.some.inj h
      refine ⟨?_, hc.2.1, hc.2.2⟩
      conv_lhs => rw [← List.take_append_drop urlHeader.length s]
      rw [hc.1]
    next => exact absurd h (by simp)
  · rintro ⟨rfl, hne, hall⟩
    rw [matchUrlRegex]
    rw [List.take_left, List.drop_left]
    rw [if_pos ⟨rfl, hne, hall⟩]

/-- Claim C7: `parseAutomergeUrl` succeeds exactly on strings that are the
literal prefix followed by a nonempty word-character payload that
base58check-decodes; and a string `isValidAutomergeUrl` accepts always
parses (so any extra characters or invalid payload make the parse throw
and the validity test return false). -/
theorem parseAutomergeUrl_exact_form (s : List Char) :
    ((parseAutomergeUrl s).isSome ↔
      ∃ w, s = urlHeader ++ w ∧ w ≠ [] ∧ w.all isWordChar = true ∧
        (documentIdToBinary w).isSome) ∧
    (isValidAutomergeUrl s = true → (parseAutomergeUrl s).isSome) := by
  constructor
  · constructor
    · intro h
      rcases hm : matchUrlRegex s with _ | w
      · rw [parseAutomergeUrl, hm] at h
        simp at h
      · rcases hd : documentIdToBinary w with _ | bin
        · rw [parseAutomergeUrl, hm] at h
          simp [hd] at h
        · obtain ⟨hs, hne, hall⟩ := (matchUrlRegex_eq_some s w).mp hm
          exact ⟨w, hs, hne, hall, by rw [hd]; rfl⟩
    · rintro ⟨w, rfl, hne, hall, hdec⟩
      have hm : matchUrlRegex (urlHeader ++ w) = some w :=
        (matchUrlRegex_eq_some _ w).mpr ⟨rfl, hne, hall⟩
      rcases hd : documentIdToBinary w with _ | bin
      · rw [hd] at hdec
        simp at hdec
      · rw [parseAutomergeUrl, hm]
        simp [hd]
  · intro hv
    rcases hp : parseAutomergeUrl s with _ | r
    · rw [isValidAutomergeUrl] at hv
      split at hv
      · rw [hp] at hv
        simp at hv
      · simp at hv
    · rfl

set_option maxRecDepth 4000 in
/-- Concrete instance of C7: the URL built from the all-one 16-byte id has
the exact form, so it parses. -/
theorem parseAutomergeUrl_exact_form_witness :
    (parseAutomergeUrl (urlHeader ++ binaryToDocumentId (List.replicate 16 1))).isSome = true :=
  (parseAutomergeUrl_exact_form
      (urlHeader ++ binaryToDocumentId (List.replicate 16 1))).1.mpr
    ⟨binaryToDocumentId (List.replicate 16 1), rfl, by decide, by decide, by decide⟩

/-! ## The inbound ephemeral filter (C2) -/

theorem filterMap_sublist_of_imp {α β : Type} (l : List α) (f g : α → Option β)
    (h : ∀ x y, f x = some y → g x = some y) :
    (l.filterMap f).Sublist (l.filterMap g) := by
  induction l with
  | nil => simp
  | cons x xs ih =>
    rw [List.filterMap_cons, List.filterMap_cons]
    rcases hf : f x with _ | y
    · rcases hg : g x with _ | z
      · exact ih
      · exact ih.trans (List.sublist_cons_self z _)
    · rw [h x y hf]
      exact ih.cons₂ y

theorem handleInbound_step (st : EphemeralCounts) (out : List InMsg) (m : InMsg)
    (h : ∀ k, (deliveredCountsForKey k out).Pairwise (· < ·) ∧
      ∀ c ∈ deliveredCountsForKey k out, ∃ mx, st k = some mx ∧ c ≤ mx) :
    ∀ k, (deliveredCountsForKey k (out ++ (handleInbound st m).2)).Pairwise (· < ·) ∧
      ∀ c ∈ deliveredCountsForKey k (out ++ (handleInbound st m).2),
        ∃ mx, (handleInbound st m).1 k = some mx ∧ c ≤ mx := by
  intro k
  have happ : ∀ l2 : List InMsg, deliveredCountsForKey k (out ++ l2) =
      deliveredCountsForKey k out ++ deliveredCountsForKey k l2 := by
    intro l2
    rw [deliveredCountsForKey, deliveredCountsForKey, deliveredCountsForKey,
      List.filterMap_append]
  cases m with
  | invalid t =>
    simp only [handleInbound]
    simpa using h k
  | nonEphemeral t =>
    simp only [handleInbound]
    rw [happ]
    have hz : deliveredCountsForKey k [InMsg.nonEphemeral t] = [] := by
      simp [deliveredCountsForKey]
    rw [hz, List.append_nil]
    exact h k
  | ephemeral e =>
    rcases hst : st (ephemeralSource e) with _ | c0
    · simp only [handleInbound, hst]
      rw [happ]
      by_cases hk : ephemeralSource e = k
      · subst hk
        have hempty : deliveredCountsForKey (ephemeralSource e) out = [] := by
          rcases hdk : deliveredCountsForKey (ephemeralSource e) out with _ | ⟨c, cs⟩
          · rfl
          · exfalso
            obtain ⟨mx, hmx, _⟩ := (h (ephemeralSource e)).2 c (by rw [hdk]; simp)
            rw [hst] at hmx
            exact Option.noConfusion hmx
        have hsingle : deliveredCountsForKey (ephemeralSource e) [InMsg.ephemeral e] =
            [e.count] := by
          simp [deliveredCountsForKey]
        rw [hempty, hsingle, List.nil_append]
        constructor
        · simp
        · intro c hc
          simp only [List.mem_singleton] at hc
          subst hc
          exact ⟨e.count, by simp [setCount], le_refl _⟩
      · have hz : deliveredCountsForKey k [InMsg.ephemeral e] = [] := by
          simp [deliveredCountsForKey, hk]
        rw [hz, List.append_nil]
        refine ⟨(h k).1, ?_⟩
        intro c hc
        obtain ⟨mx, hmx, hle⟩ := (h k).2 c hc
        refine ⟨mx, ?_, hle⟩
        rw [setCount, if_neg (fun hh => hk hh.symm)]
        exact hmx
    · by_cases hgt : e.count > c0
      · simp only [handleInbound, hst, if_pos hgt]
        rw [happ]
        by_cases hk : ephemeralSource e = k
        · subst hk
          have hsingle : deliveredCountsForKey (ephemeralSource e) [InMsg.ephemeral e] =
              [e.count] := by
            simp [deliveredCountsForKey]
          rw [hsingle, List.pairwise_append]
          constructor
          · refine ⟨(h _).1, by simp, ?_⟩
            intro a ha b hb
            simp only [List.mem_singleton] at hb
            subst hb
            obtain ⟨mx, hmx, hle⟩ := (h _).2 a ha
            rw [hst] at hmx
            obtain rfl := Option.some.inj hmx
            omega
          · intro c hc
            rcases List.mem_append.mp hc with hcm | hcm
            · obtain ⟨mx, hmx, hle⟩ := (h _).2 c hcm
              rw [hst] at hmx
              obtain rfl := Option.some.inj hmx
              exact ⟨e.count, by simp [setCount], by omega⟩
            · simp only [List.mem_singleton] at hcm
              subst hcm
              exact ⟨e.count, by simp [setCount], le_refl _⟩
        · have hz : deliveredCountsForKey k [InMsg.ephemeral e] = [] := by
            simp [deliveredCountsForKey, hk]
          rw [hz, List.append_nil]
          refine ⟨(h k).1, ?_⟩
          intro c hc
          obtain ⟨mx, hmx, hle⟩ := (h k).2 c hc
          refine ⟨mx, ?_, hle⟩
          rw [setCount, if_neg (fun hh => hk hh.symm)]
          exact hmx
      · simp only [handleInbound, hst, if_neg hgt]
        simpa using h k

theorem runInbound_fold_invariant :
    ∀ (msgs : List InMsg) (st : EphemeralCounts) (out : List InMsg),
      (∀ k, (deliveredCountsForKey k out).Pairwise (· < ·) ∧
        ∀ c ∈ deliveredCountsForKey k out, ∃ mx, st k = some mx ∧ c ≤ mx) →
      ∀ k,
        (deliveredCountsForKey k
          (msgs.foldl (fun p m => ((handleInbound p.1 m).1, p.2 ++ (handleInbound p.1 m).2))
            (st, out)).2).Pairwise (· < ·) ∧
        ∀ c ∈ deliveredCountsForKey k
          (msgs.foldl (fun p m => ((handleInbound p.1 m).1, p.2 ++ (handleInbound p.1 m).2))
            (st, out)).2,
          ∃ mx, (msgs.foldl (fun p m => ((handleInbound p.1 m).1, p.2 ++ (handleInbound p.1 m).2))
            (st, out)).1 k = some mx ∧ c ≤ mx := by
  intro msgs
  induction msgs with
  | nil => intro st out h k; simpa using h k
  | cons msg rest ih =>
    intro st out h k
    rw [List.foldl_cons]
    exact ih (handleInbound st msg).1 (out ++ (handleInbound st msg).2)
      (handleInbound_step st out msg h) k

/-- Claim C2: for every `(senderId, sessionId)` pair, the counts of the
ephemeral messages the subsystem delivers are strictly increasing in
delivery order (hence at most one delivery per count value, and never a
delivery in decreasing count order); and an inbound ephemeral whose count
is at most the last-seen count for its source is dropped (appending it
delivers nothing new). -/
theorem ephemeral_filter_monotone_and_drops (msgs : List InMsg)
    (sender sess : List Char) (e : EphemeralFields) (c : Nat) :
    (deliveredCountsForPair sender sess (deliveredMsgs msgs)).Pairwise (· < ·) ∧
    ((runInbound msgs).1 (ephemeralSource e) = some c → e.count ≤ c →
      deliveredMsgs (msgs ++ [.ephemeral e]) = deliveredMsgs msgs) := by
  constructor
  · have hkey := runInbound_fold_invariant msgs (fun _ => none) []
      (by intro k; simp [deliveredCountsForKey]) (sender ++ ':' :: sess)
    have hsub : (deliveredCountsForPair sender sess (deliveredMsgs msgs)).Sublist
        (deliveredCountsForKey (sender ++ ':' :: sess) (deliveredMsgs msgs)) := by
      apply filterMap_sublist_of_imp
      intro m y hf
      cases m with
      | ephemeral e2 =>
        simp only at hf
        split at hf
        next hcond =>
          obtain ⟨h1, h2⟩ := hcond
          obtain rfl := Option.some.inj hf
          simp only
          rw [if_pos]
          rw [ephemeralSource, h1, h2]
        next => exact absurd hf (by simp)
      | nonEphemeral t => exact absurd hf (by simp)
      | invalid t => exact absurd hf (by simp)
    exact List.Pairwise.sublist hsub hkey.1
  · intro hst hle
    rw [deliveredMsgs, deliveredMsgs, runInbound, runInbound, List.foldl_append]
    rw [List.foldl_cons, List.foldl_nil]
    have hrun : (List.foldl
        (fun p m => ((handleInbound p.1 m).1, p.2 ++ (handleInbound p.1 m).2))
        (fun _ => none, []) msgs).1 (ephemeralSource e) = some c := hst
    rw [handleInbound]
    rw [hrun]
    have hng : ¬ (e.count > c) := by omega
    simp [hng]

/-- Concrete instance of C2 (the spec's reordering scenario): of counts
3,1,2 only 3 is delivered, and appending another count-2 ephemeral from
the same source delivers nothing new. -/
theorem ephemeral_filter_monotone_and_drops_witness :
    deliveredCountsForPair ['a'] ['s']
      (deliveredMsgs [.ephemeral ⟨['a'], ['s'], 3⟩, .ephemeral ⟨['a'], ['s'], 1⟩,
        .ephemeral ⟨['a'], ['s'], 2⟩]) = [3] ∧
    deliveredMsgs ([.ephemeral ⟨['a'], ['s'], 3⟩, .ephemeral ⟨['a'], ['s'], 1⟩,
        .ephemeral ⟨['a'], ['s'], 2⟩] ++ [.ephemeral ⟨['a'], ['s'], 2⟩]) =
      deliveredMsgs [.ephemeral ⟨['a'], ['s'], 3⟩, .ephemeral ⟨['a'], ['s'], 1⟩,
        .ephemeral ⟨['a'], ['s'], 2⟩] :=
  ⟨by decide,
   (ephemeral_filter_monotone_and_drops
      [.ephemeral ⟨['a'], ['s'], 3⟩, .ephemeral ⟨['a'], ['s'], 1⟩,
        .ephemeral ⟨['a'], ['s'], 2⟩] ['a'] ['s'] ⟨['a'], ['s'], 2⟩ 3).2
     (by decide) (by decide)⟩

/-! ## Outbound send tagging (C3) -/

/-- Claim C3 counterexample: an ephemeral that already carries a `count`
(a forwarded ephemeral) is handed to the adapter unchanged, so its
`senderId` stays `"o"` instead of being replaced by our peer id `"me"`,
refuting the claim that every routed message is stamped with our
senderId. -/
theorem send_forwarded_ephemeral_keeps_foreign_sender :
    (sendStep ['m', 'e'] ⟨0, ['s'], [['t']]⟩
        ⟨true, ['t'], some ['o'], some 5, some ['x']⟩).2 =
      some ⟨true, ['t'], some ['o'], some 5, some ['x']⟩ ∧
    (['o'] : List Char) ≠ ['m', 'e'] := by
  constructor
  · rw [sendStep]
    rw [if_pos (by decide : (['t'] : List Char) ∈ [['t']])]
    rfl
  · decide

theorem sendStep_state (peerId : List Char) (st : SendState) (m : SendMsg) :
    (sendStep peerId st m).1.sessionId = st.sessionId ∧
    (sendStep peerId st m).1.routedPeers = st.routedPeers ∧
    st.count ≤ (sendStep peerId st m).1.count := by
  by_cases hr : m.targetId ∈ st.routedPeers
  · by_cases he : m.isEphemeralType = true
    · rcases hc : m.count with _ | c
      · refine ⟨by simp [sendStep, hr, he, hc], by simp [sendStep, hr, he, hc], ?_⟩
        simp [sendStep, hr, he, hc]
      · exact ⟨by simp [sendStep, hr, he, hc], by simp [sendStep, hr, he, hc],
          by simp [sendStep, hr, he, hc]⟩
    · rw [Bool.not_eq_true] at he
      exact ⟨by simp [sendStep, hr, he], by simp [sendStep, hr, he],
        by simp [sendStep, hr, he]⟩
  · exact ⟨by simp [sendStep, hr], by simp [sendStep, hr], by simp [sendStep, hr]⟩

theorem sendStep_output (peerId : List Char) (st : SendState) (m : SendMsg)
    (mo : SendMsg) (h : (sendStep peerId st m).2 = some mo) :
    (m.isEphemeralType = false → mo = {m with senderId := some peerId}) ∧
    (m.isEphemeralType = true → m.count = none →
      mo.senderId = some peerId ∧ mo.sessionId = some st.sessionId ∧
      mo.count = some (st.count + 1) ∧
      (sendStep peerId st m).1.count = st.count + 1) ∧
    (m.isEphemeralType = true → m.count.isSome = true → mo = m) := by
  by_cases hr : m.targetId ∈ st.routedPeers
  · by_cases he : m.isEphemeralType = true
    · rcases hc : m.count with _ | c
      · rw [sendStep, if_pos hr, he] at h
        simp only [if_true, hc] at h
        obtain rfl := Option.some.inj h
        refine ⟨?_, ?_, ?_⟩
        · intro hf
          rw [he] at hf
          cases hf
        · intro _ _
          refine ⟨rfl, rfl, rfl, ?_⟩
          rw [sendStep, if_pos hr, he]
          simp [hc]
        · intro _ hcs
          simp at hcs
      · rw [sendStep, if_pos hr, he] at h
        simp only [if_true, hc] at h
        obtain rfl := Option.some.inj h
        refine ⟨?_, ?_, ?_⟩
        · intro hf
          rw [he] at hf
          cases hf
        · intro _ hcn
          exact Option.noConfusion hcn
        · intro _ _
          rfl
    · rw [Bool.not_eq_true] at he
      rw [sendStep, if_pos hr, he] at h
      simp only [Bool.false_eq_true, if_false] at h
      obtain rfl := Option.some.inj h
      refine ⟨?_, ?_, ?_⟩
      · intro _
        rw [he]
      · intro ht
        rw [he] at ht
        cases ht
      · intro ht
        rw [he] at ht
        cases ht
  · rw [sendStep, if_neg hr] at h
    cases h

theorem runSends_fold_invariant (peerId sid : List Char) :
    ∀ (msgs : List SendMsg) (st : SendState)
      (acc : List (SendMsg × Option SendMsg)),
      st.sessionId = sid →
      (stampedCounts acc).Pairwise (· < ·) →
      (∀ c ∈ stampedCounts acc, c ≤ st.count) →
      (∀ mi mo, (mi, some mo) ∈ acc →
        (mi.isEphemeralType = false → mo = {mi with senderId := some peerId}) ∧
        (mi.isEphemeralType = true → mi.count = none →
          mo.senderId = some peerId ∧ mo.sessionId = some sid) ∧
        (mi.isEphemeralType = true → mi.count.isSome = true → mo = mi)) →
      (stampedCounts
        (msgs.foldl (fun p m => ((sendStep peerId p.1 m).1, p.2 ++ [(m, (sendStep peerId p.1 m).2)]))
          (st, acc)).2).Pairwise (· < ·) ∧
      (∀ mi mo, (mi, some mo) ∈
        (msgs.foldl (fun p m => ((sendStep peerId p.1 m).1, p.2 ++ [(m, (sendStep peerId p.1 m).2)]))
          (st, acc)).2 →
        (mi.isEphemeralType = false → mo = {mi with senderId := some peerId}) ∧
        (mi.isEphemeralType = true → mi.count = none →
          mo.senderId = some peerId ∧ mo.sessionId = some sid) ∧
        (mi.isEphemeralType = true → mi.count.isSome = true → mo = mi)) := by
  intro msgs
  induction msgs with
  | nil =>
    intro st acc hsid hpw hbd htr
    exact ⟨hpw, htr⟩
  | cons m rest ih =>
    intro st acc hsid hpw hbd htr
    rw [List.foldl_cons]
    have hstp := sendStep_state peerId st m
    have happ : stampedCounts (acc ++ [(m, (sendStep peerId st m).2)]) =
        stampedCounts acc ++ stampedCounts [(m, (sendStep peerId st m).2)] := by
      rw [stampedCounts, stampedCounts, stampedCounts, List.filterMap_append]
    apply ih (sendStep peerId st m).1 (acc ++ [(m, (sendStep peerId st m).2)])
      (by rw [hstp.1, hsid])
    -- Pairwise for the extended trace
    · rw [happ]
      rcases ho : (sendStep peerId st m).2 with _ | mo
      · have hz : stampedCounts [(m, (none : Option SendMsg))] = [] := by
          simp [stampedCounts]
        rw [hz, List.append_nil]
        exact hpw
      · by_cases hnew : m.isEphemeralType = true ∧ m.count = none
        · have hout := (sendStep_output peerId st m mo ho).2.1 hnew.1 hnew.2
          have hs : stampedCounts [(m, some mo)] = [st.count + 1] := by
            simp [stampedCounts, hnew.1, hnew.2, hout.2.2.1]
          rw [hs, List.pairwise_append]
          refine ⟨hpw, by simp, ?_⟩
          intro a ha b hb
          simp only [List.mem_singleton] at hb
          subst hb
          have := hbd a ha
          omega
        · have hz : stampedCounts [(m, some mo)] = [] := by
            by_cases he : m.isEphemeralType = true
            · have hcs : m.count.isNone = false := by
                rcases hcc : m.count with _ | c
                · exact absurd ⟨he, hcc⟩ hnew
                · simp
              simp only [stampedCounts, List.filterMap_cons, List.filterMap_nil, he,
                hcs, Bool.and_false, Bool.false_eq_true, if_false]
            · rw [Bool.not_eq_true] at he
              simp [stampedCounts, he]
          rw [hz, List.append_nil]
          exact hpw
    -- count bound for the extended trace
    · rw [happ]
      rcases ho : (sendStep peerId st m).2 with _ | mo
      · have hz : stampedCounts [(m, (none : Option SendMsg))] = [] := by
          simp [stampedCounts]
        rw [hz, List.append_nil]
        intro c hc
        exact le_trans (hbd c hc) hstp.2.2
      · by_cases hnew : m.isEphemeralType = true ∧ m.count = none
        · have hout := (sendStep_output peerId st m mo ho).2.1 hnew.1 hnew.2
          have hs : stampedCounts [(m, some mo)] = [st.count + 1] := by
            simp [stampedCounts, hnew.1, hnew.2, hout.2.2.1]
          rw [hs]
          intro c hc
          rcases List.mem_append.mp hc with hcm | hcm
          · have := hbd c hcm
            rw [hout.2.2.2]
            omega
          · simp only [List.mem_singleton] at hcm
            subst hcm
            rw [hout.2.2.2]
        · have hz : stampedCounts [(m, some mo)] = [] := by
            by_cases he : m.isEphemeralType = true
            · have hcs : m.count.isNone = false := by
                rcases hcc : m.count with _ | c
                · exact absurd ⟨he, hcc⟩ hnew
                · simp
              simp only [stampedCounts, List.filterMap_cons, List.filterMap_nil, he,
                hcs, Bool.and_false, Bool.false_eq_true, if_false]
            · rw [Bool.not_eq_true] at he
              simp [stampedCounts, he]
          rw [hz, List.append_nil]
          intro c hc
          exact le_trans (hbd c hc) hstp.2.2
    -- trace properties for the extended trace
    · intro mi mo hmem
      rcases List.mem_append.mp hmem with hm | hm
      · exact htr mi mo hm
      · simp only [List.mem_singleton, Prod.mk.injEq] at hm
        obtain ⟨rfl, hmo⟩ := hm
        have ho : (sendStep peerId st mi).2 = some mo := hmo.symm
        have hout := sendStep_output peerId st mi mo ho
        refine ⟨hout.1, ?_, hout.2.2⟩
        intro he hc
        have := hout.2.1 he hc
        exact ⟨this.1, by rw [this.2.1, hsid]⟩

/-- Claim C3 (amended): every routed non-ephemeral message, and every
routed ephemeral originated here (no `count` yet), is handed to the
adapter with `senderId` set to our peer id, new ephemerals also getting
the session's id and strictly increasing counts across the run; an
ephemeral already carrying a `count` is forwarded unchanged, keeping its
original `senderId`. -/
theorem send_tags_and_monotone_counts (peerId : List Char) (st : SendState)
    (msgs : List SendMsg) :
    (∀ mi mo, (mi, some mo) ∈ (runSends peerId st msgs).2 →
      (mi.isEphemeralType = false → mo = {mi with senderId := some peerId}) ∧
      (mi.isEphemeralType = true → mi.count = none →
        mo.senderId = some peerId ∧ mo.sessionId = some st.sessionId) ∧
      (mi.isEphemeralType = true → mi.count.isSome = true → mo = mi)) ∧
    (stampedCounts (runSends peerId st msgs).2).Pairwise (· < ·) := by
  have h := runSends_fold_invariant peerId st.sessionId msgs st [] rfl
    (by simp [stampedCounts]) (by simp [stampedCounts]) (by simp)
  exact ⟨h.2, h.1⟩

/-- Concrete instance of the amended C3: two new ephemerals sent in a row
are stamped with counts 1 then 2, and a non-ephemeral gets our senderId. -/
theorem send_tags_and_monotone_counts_witness :
    stampedCounts (runSends ['m'] ⟨0, ['s'], [['t']]⟩
      [⟨true, ['t'], none, none, none⟩, ⟨true, ['t'], none, none, none⟩]).2 = [1, 2] ∧
    (stampedCounts (runSends ['m'] ⟨0, ['s'], [['t']]⟩
      [⟨true, ['t'], none, none, none⟩, ⟨true, ['t'], none, none, none⟩]).2).Pairwise (· < ·) :=
  ⟨by decide,
   (send_tags_and_monotone_counts ['m'] ⟨0, ['s'], [['t']]⟩
      [⟨true, ['t'], none, none, none⟩, ⟨true, ['t'], none, none, none⟩]).2⟩

/-! ## Repo handle cache (C4, C5, C6, C10) -/

theorem cacheUpdate_keys (c : List (Nat × Handle)) (id : Nat) (h : Handle) :
    (cacheUpdate c id h).map (fun p => p.1) = c.map (fun p => p.1) := by
  rw [cacheUpdate, List.map_map]
  apply List.map_congr_left
  intro p _
  by_cases hb : p.1 == id
  · have : p.1 = id := by simpa using hb
    simp [hb, this]
  · have : ¬ p.1 = id := by simpa using hb
    simp [this]

theorem cacheLookup_none_not_mem (c : List (Nat × Handle)) (id : Nat)
    (h : cacheLookup c id = none) : id ∉ c.map (fun p => p.1) := by
  intro hmem
  rw [cacheLookup, Option.map_eq_none'] at h
  rw [List.find?_eq_none] at h
  rw [List.mem_map] at hmem
  obtain ⟨p, hp, hpe⟩ := hmem
  exact h p hp (by simpa using hpe)

theorem getHandle_nodup (st : RepoState) (id : Nat)
    (h : (st.cache.map (fun p => p.1)).Nodup) :
    ((getHandle st id).2.cache.map (fun p => p.1)).Nodup := by
  rw [getHandle]
  rcases hl : cacheLookup st.cache id with _ | h0
  · simp only
    rw [List.map_cons]
    exact List.Nodup.cons (cacheLookup_none_not_mem st.cache id hl) h
  · simpa using h

theorem filter_keys_nodup (c : List (Nat × Handle)) (f : Nat × Handle → Bool)
    (h : (c.map (fun p => p.1)).Nodup) :
    ((c.filter f).map (fun p => p.1)).Nodup :=
  List.Nodup.sublist (List.Sublist.map _ (List.filter_sublist c)) h

theorem cacheLookup_filter_self (c : List (Nat × Handle)) (id : Nat) :
    cacheLookup (c.filter (fun p => !(p.1 == id))) id = none := by
  rw [cacheLookup, Option.map_eq_none']
  rw [List.find?_eq_none]
  intro p hp
  have := (List.mem_filter.mp hp).2
  simp at this
  simp [this]

/-- Claim C4: `find` on a cached id returns the cached handle object
itself without touching the state (no second handle is constructed), and
the cache keys stay duplicate-free across `find`, `create` and `delete`,
so at any instant there is at most one handle per documentId. -/
theorem find_returns_cached_handle_and_unique (st : RepoState) (id : Nat)
    (h : Handle) (v : Option Nat) :
    (cacheLookup st.cache id = some h →
      (repoFind st id).1 = h ∧ (repoFind st id).2.1 = st) ∧
    ((st.cache.map (fun p => p.1)).Nodup →
      ((repoFind st id).2.1.cache.map (fun p => p.1)).Nodup ∧
      ((repoCreate st v).2.1.cache.map (fun p => p.1)).Nodup ∧
      ((repoDelete st id).2.1.cache.map (fun p => p.1)).Nodup) := by
  constructor
  · intro hc
    rw [repoFind, hc]
    exact ⟨rfl, rfl⟩
  · intro hnd
    refine ⟨?_, ?_, ?_⟩
    · rw [repoFind]
      rcases hl : cacheLookup st.cache id with _ | h0
      · simpa using getHandle_nodup st id hnd
      · simpa using hnd
    · rw [repoCreate.eq_def]
      simp only
      rw [cacheUpdate_keys]
      exact getHandle_nodup _ st.nextDocId hnd
    · rw [repoDelete]
      simp only
      exact filter_keys_nodup _ _ (getHandle_nodup st id hnd)

/-- Concrete instance of C4 at a one-entry cache. -/
theorem find_returns_cached_handle_and_unique_witness :
    (repoFind ⟨[(5, ⟨0, 5, .ready, none⟩)], 10, 1, false⟩ 5).1 =
      (⟨0, 5, .ready, none⟩ : Handle) ∧
    ((repoDelete ⟨[(5, ⟨0, 5, .ready, none⟩)], 10, 1, false⟩ 5).2.1.cache.map
      (fun p => p.1)).Nodup :=
  ⟨((find_returns_cached_handle_and_unique ⟨[(5, ⟨0, 5, .ready, none⟩)], 10, 1, false⟩
      5 ⟨0, 5, .ready, none⟩ none).1 (by decide)).1,
   ((find_returns_cached_handle_and_unique ⟨[(5, ⟨0, 5, .ready, none⟩)], 10, 1, false⟩
      5 ⟨0, 5, .ready, none⟩ none).2 (by decide)).2.2⟩

/-- Claim C5: `create` mints the fresh id (below-counter invariant models
UUID freshness), and the returned handle is READY, seeded with
`Automerge.from(initialValue)` or the empty-change document, and cached
under the fresh id. -/
theorem create_ready_and_seeded (st : RepoState) (v : Option Nat)
    (hfresh : ∀ p ∈ st.cache, p.1 < st.nextDocId) :
    (repoCreate st v).1.isReady = true ∧
    (repoCreate st v).1.hdoc = some (match v with
      | some x => AmDoc.fromValue x
      | none => AmDoc.emptyChangeInit) ∧
    (repoCreate st v).1.documentId = st.nextDocId ∧
    cacheLookup st.cache st.nextDocId = none ∧
    cacheLookup (repoCreate st v).2.1.cache st.nextDocId = some (repoCreate st v).1 := by
  have hnone : cacheLookup st.cache st.nextDocId = none := by
    rw [cacheLookup, Option.map_eq_none', List.find?_eq_none]
    intro p hp
    have := hfresh p hp
    simp
    omega
  have hgh : getHandle {st with nextDocId := st.nextDocId + 1} st.nextDocId =
      (⟨st.nextHid, st.nextDocId, .idle, none⟩,
       {st with nextDocId := st.nextDocId + 1,
                cache := (st.nextDocId, ⟨st.nextHid, st.nextDocId, .idle, none⟩) :: st.cache,
                nextHid := st.nextHid + 1}) := by
    rw [getHandle]
    have : cacheLookup ({st with nextDocId := st.nextDocId + 1}).cache st.nextDocId = none :=
      hnone
    rw [this]
  rw [repoCreate.eq_def]
  simp only [hgh]
  refine ⟨rfl, rfl, rfl, hnone, ?_⟩
  rw [cacheUpdate]
  simp [cacheLookup, List.find?]

/-- Concrete instance of C5 on the empty Repo state. -/
theorem create_ready_and_seeded_witness :
    (repoCreate ⟨[], 0, 0, false⟩ (some 3)).1.isReady = true ∧
    (repoCreate ⟨[], 0, 0, false⟩ (some 3)).1.hdoc = some (AmDoc.fromValue 3) :=
  ⟨(create_ready_and_seeded ⟨[], 0, 0, false⟩ (some 3) (by simp)).1,
   (create_ready_and_seeded ⟨[], 0, 0, false⟩ (some 3) (by simp)).2.1⟩

/-- Claim C6: deleting a cached id marks that very handle DELETED,
removes the cache entry, emits `delete-document`, and requests storage
`removeDoc` when a storage subsystem is configured. -/
theorem delete_cached_handle (st : RepoState) (id : Nat) (h : Handle)
    (hc : cacheLookup st.cache id = some h) :
    (repoDelete st id).1 = h.deleteHandle ∧
    (repoDelete st id).1.isDeleted = true ∧
    cacheLookup (repoDelete st id).2.1.cache id = none ∧
    RepoEvent.deleteDocument id ∈ (repoDelete st id).2.2 ∧
    (st.hasStorage = true → RepoEvent.removeDocRequested id ∈ (repoDelete st id).2.2) := by
  have hgh : getHandle st id = (h, st) := by
    rw [getHandle, hc]
  rw [repoDelete]
  simp only [hgh]
  refine ⟨trivial, ?_, ?_, ?_, ?_⟩
  · simp [Handle.deleteHandle, Handle.isDeleted]
  · exact cacheLookup_filter_self st.cache id
  · simp
  · intro hs
    rw [hs]
    simp

/-- Concrete instance of C6 at a one-entry cache with storage. -/
theorem delete_cached_handle_witness :
    (repoDelete ⟨[(5, ⟨0, 5, .ready, none⟩)], 10, 1, true⟩ 5).1.isDeleted = true ∧
    RepoEvent.removeDocRequested 5 ∈
      (repoDelete ⟨[(5, ⟨0, 5, .ready, none⟩)], 10, 1, true⟩ 5).2.2 :=
  ⟨(delete_cached_handle ⟨[(5, ⟨0, 5, .ready, none⟩)], 10, 1, true⟩ 5
      ⟨0, 5, .ready, none⟩ (by decide)).2.1,
   (delete_cached_handle ⟨[(5, ⟨0, 5, .ready, none⟩)], 10, 1, true⟩ 5
      ⟨0, 5, .ready, none⟩ (by decide)).2.2.2.2 rfl⟩

/-- Claim C10: deleting an id that is not cached never fails — a fresh
handle is created through `#getHandle`, transitioned to DELETED, the
`delete-document` event fires and the cache ends without an entry for
the id, just as for a cached one. -/
theorem delete_unknown_id_total (st : RepoState) (id : Nat)
    (hc : cacheLookup st.cache id = none) :
    (repoDelete st id).1.isDeleted = true ∧
    (repoDelete st id).1.documentId = id ∧
    (repoDelete st id).1.hid = st.nextHid ∧
    cacheLookup (repoDelete st id).2.1.cache id = none ∧
    RepoEvent.deleteDocument id ∈ (repoDelete st id).2.2 := by
  have hgh : getHandle st id =
      (⟨st.nextHid, id, .idle, none⟩,
       {st with cache := (id, ⟨st.nextHid, id, .idle, none⟩) :: st.cache,
                nextHid := st.nextHid + 1}) := by
    rw [getHandle, hc]
  rw [repoDelete]
  simp only [hgh]
  refine ⟨?_, rfl, rfl, ?_, ?_⟩
  · simp [Handle.deleteHandle, Handle.isDeleted]
  · exact cacheLookup_filter_self _ id
  · simp

/-- Concrete instance of C10: deleting id 9 on the empty Repo state. -/
theorem delete_unknown_id_total_witness :
    (repoDelete ⟨[], 0, 0, false⟩ 9).1.isDeleted = true ∧
    cacheLookup (repoDelete ⟨[], 0, 0, false⟩ 9).2.1.cache 9 = none :=
  ⟨(delete_unknown_id_total ⟨[], 0, 0, false⟩ 9 (by decide)).1,
   (delete_unknown_id_total ⟨[], 0, 0, false⟩ 9 (by decide)).2.2.2.1⟩

/-! ## Sync-state persistence (C8) -/

/-- Claim C8: a sync-state event whose peer is unknown, has no truthy
storageId, or is marked ephemeral never reaches storage
`saveSyncState`; a save request is produced only for a known,
non-ephemeral peer with a storageId (and carries that storageId). -/
theorem saveSyncState_never_persists_ephemeral (env : SyncSaveEnv)
    (p : SyncStatePayload) :
    ((env.peerMetadataByPeerId.find? (fun q => q.1 == p.peerId) = none ∨
      (∃ m, env.peerMetadataByPeerId.find? (fun q => q.1 == p.peerId) = some m ∧
        (strFalsy m.2.storageId = true ∨ m.2.isEphemeral = true))) →
      saveSyncState env p = none) ∧
    (∀ r, saveSyncState env p = some r →
      env.hasStorageSubsystem = true ∧
      ∃ m, env.peerMetadataByPeerId.find? (fun q => q.1 == p.peerId) = some m ∧
        m.2.isEphemeral = false ∧ strFalsy m.2.storageId = false ∧
        m.2.storageId = some r.storageId) := by
  constructor
  · intro hcase
    by_cases hs : env.hasStorageSubsystem = true
    · rcases hcase with hno | ⟨m, hm, hcond⟩
      · simp [saveSyncState, hs, hno, strFalsy]
      · rcases hcond with hsf | heph
        · simp [saveSyncState, hs, hm, hsf]
        · simp [saveSyncState, hs, hm, heph]
    · rw [Bool.not_eq_true] at hs
      simp [saveSyncState, hs]
  · intro r hr
    by_cases hs : env.hasStorageSubsystem = true
    · rcases hf : env.peerMetadataByPeerId.find? (fun q => q.1 == p.peerId) with _ | m
      · rw [saveSyncState, if_pos hs] at hr
        simp [hf, strFalsy] at hr
      · rw [saveSyncState, if_pos hs] at hr
        simp only [hf, Option.map_some'] at hr
        by_cases hcond : (strFalsy m.2.storageId || m.2.isEphemeral) = true
        · rw [if_pos hcond] at hr
          cases hr
        · rw [if_neg hcond] at hr
          obtain rfl := Option.some.inj hr
          rw [Bool.or_eq_true] at hcond
          have ha : strFalsy m.2.storageId = false := by
            by_cases h2 : strFalsy m.2.storageId = true
            · exact absurd (Or.inl h2) hcond
            · simpa using h2
          have hb : m.2.isEphemeral = false := by
            by_cases h2 : m.2.isEphemeral = true
            · exact absurd (Or.inr h2) hcond
            · simpa using h2
          refine ⟨hs, m, hf, hb, ha, ?_⟩
          rcases hsid : m.2.storageId with _ | s
          · rw [hsid] at ha
            simp [strFalsy] at ha
          · simp [hsid]
    · rw [Bool.not_eq_true] at hs
      rw [saveSyncState] at hr
      rw [hs] at hr
      simp at hr

/-- Concrete instance of C8: an ephemeral peer's sync-state event is not
persisted. -/
theorem saveSyncState_never_persists_ephemeral_witness :
    saveSyncState ⟨true, [(['p'], ⟨some ['s'], true⟩)]⟩ ⟨1, ['p'], 0⟩ = none :=
  (saveSyncState_never_persists_ephemeral ⟨true, [(['p'], ⟨some ['s'], true⟩)]⟩
      ⟨1, ['p'], 0⟩).1
    (Or.inr ⟨(['p'], ⟨some ['s'], true⟩), by decide, Or.inr rfl⟩)

/-! ## CollectionSynchronizer addDocument dedupe (C9) -/

/-- Claim C9 counterexample: two successive `addDocument` calls for the
same id (with one connected, generous peer and no intervening message).
The second call is not a no-op: because `addDocument` never sets
`#docSetUp`, it reaches `beginSync` again with all generous peers. -/
theorem addDocument_repeat_not_noop :
    (addDocument (fun _ _ => true)
        (addDocument (fun _ _ => true) ⟨[['p']], [], [], 0⟩ 7).1 7).2 =
      [.beganSync 7 [['p']]] ∧
    (addDocument (fun _ _ => true)
        (addDocument (fun _ _ => true) ⟨[['p']], [], [], 0⟩ 7).1 7).2 ≠ [] := by
  constructor
  · decide
  · decide

theorem putSynchronizer_find (st : CollSyncState) (id : Nat) (ds1 : DocSyncState) :
    (putSynchronizer st id ds1).docSynchronizers.find? (fun q => q.1 == id) =
      (st.docSynchronizers.find? (fun q => q.1 == id)).map
        (fun q => if q.1 == id then (id, ds1) else q) := by
  rw [putSynchronizer]
  simp only
  rw [List.find?_map]
  have hpe : ((fun q : Nat × DocSyncState => q.1 == id) ∘
      (fun p => if p.1 == id then (id, ds1) else p)) = (fun q => q.1 == id) := by
    funext q
    by_cases h : (q.1 == id) = true
    · have hq : q.1 = id := by simpa using h
      simp [hq]
    · have hq : ¬ q.1 = id := by simpa using h
      simp [hq]
  rw [hpe]

/-- Claim C9 (amended): once `#docSetUp` holds the id — which only
`receiveMessage` arranges — `addDocument` is a no-op; repeated calls
never construct a second DocSynchronizer (the `docSynchronizers` map
dedupes creation and the synchronizer identity is preserved); but a
repeated `addDocument` with no intervening received message does invoke
`beginSync` with the generous peers again. -/
theorem addDocument_dedupe (policy : List Char → Nat → Bool)
    (st : CollSyncState) (id : Nat) :
    (st.docSetUp.contains id = true → addDocument policy st id = (st, [])) ∧
    ((∃ ds, st.docSynchronizers.find? (fun q => q.1 == id) = some ds) →
      (∀ d s2, CollEffect.createdSynchronizer d s2 ∉ (addDocument policy st id).2) ∧
      ((addDocument policy st id).1.docSynchronizers.find? (fun q => q.1 == id)).map
          (fun q => q.2.syncId) =
        (st.docSynchronizers.find? (fun q => q.1 == id)).map (fun q => q.2.syncId)) ∧
    (collReceiveMessage policy st id).1.docSetUp.contains id = true := by
  refine ⟨?_, ?_, ?_⟩
  · intro hset
    rw [addDocument, if_pos hset]
  · rintro ⟨ds0, hf⟩
    have hpred : (ds0.1 == id) = true := by
      have := List.find?_some hf
      simpa using this
    by_cases hset : st.docSetUp.contains id = true
    · rw [addDocument, if_pos hset]
      exact ⟨by simp, rfl⟩
    · rw [addDocument, if_neg hset]
      simp only [fetchDocSynchronizer, hf]
      constructor
      · intro d s2
        simp
      · rw [putSynchronizer_find, hf]
        simp only [Option.map_some', hpred, if_pos]
        rw [beginSyncModel]
  · rw [collReceiveMessage]
    simp only
    rcases hf2 : st.docSynchronizers.find? (fun p => p.1 == id) with _ | p
    · by_cases hm : id ∈ st.docSetUp <;>
        simp [fetchDocSynchronizer, hf2, putSynchronizer, hm]
    · by_cases hm : id ∈ st.docSetUp <;>
        simp [fetchDocSynchronizer, hf2, putSynchronizer, hm]

/-- Concrete instance of the amended C9: with the docSetUp flag set (as
`receiveMessage` leaves it), `addDocument` is a no-op. -/
theorem addDocument_dedupe_witness :
    addDocument (fun _ _ => true) ⟨[['p']], [(7, ⟨0, [['p']]⟩)], [7], 1⟩ 7 =
      (⟨[['p']], [(7, ⟨0, [['p']]⟩)], [7], 1⟩, []) :=
  (addDocument_dedupe (fun _ _ => true) ⟨[['p']], [(7, ⟨0, [['p']]⟩)], [7], 1⟩ 7).1
    (by decide)
